import Mathlib

/-!
# Verification of the `sandtool.py` normalization engine

Shallow embedding of the schema-driven normalization engine of
`sandtool.py` (classes `Sand_Interface` and `Otoole_Interface`) and proofs
about it.  Spreadsheet columns become Lean lists, pandas `DataFrame`s become
association lists of named columns, Python `dict`s become association lists
with overwrite-on-assign semantics, and the YAML schema (`config.yaml`)
becomes an association list from field names to field specifications.
-/

/-- A spreadsheet cell value.  The clicSAND sheets hold either strings
(set member codes) or integers (years, after the year-column renaming in
`read_input_data`). -/
inductive Cell where
  | str : String → Cell
  | int : Int → Cell
deriving DecidableEq, Repr

/-- The order Python's `list.sort()` induces on the (homogeneous) columns we
sort: integers by `≤`, strings lexicographically.  The cross cases never
arise on a homogeneous column; they are fixed arbitrarily so that the
relation is total. -/
def Cell.le : Cell → Cell → Bool
  | .int a, .int b => decide (a ≤ b)
  | .int _, .str _ => true
  | .str _, .int _ => false
  | .str a, .str b => decide (a ≤ b)

/-- `Cell.le` as a relation. -/
def cellLE (a b : Cell) : Prop := Cell.le a b = true

instance : DecidableRel cellLE := fun a b => by
  unfold cellLE; infer_instance

instance : IsTotal Cell cellLE where
  total a b := by
    cases a <;> cases b <;>
      simp only [cellLE, Cell.le, decide_eq_true_eq, or_true, true_or] <;>
      exact le_total _ _

instance : IsTrans Cell cellLE where
  trans a b c h1 h2 := by
    cases a <;> cases b <;> cases c <;>
      simp only [cellLE, Cell.le, decide_eq_true_eq] at h1 h2 ⊢ <;>
      first
        | rfl
        | exact le_trans h1 h2
        | trivial
        | exact Bool.noConfusion h1
        | exact Bool.noConfusion h2

instance : IsAntisymm Cell cellLE where
  antisymm a b h1 h2 := by
    cases a <;> cases b <;>
      simp only [cellLE, Cell.le, decide_eq_true_eq] at h1 h2 <;>
      first
        | exact congrArg _ (le_antisymm h1 h2)
        | exact Bool.noConfusion h1
        | exact Bool.noConfusion h2

/-- `vals = list(set(vals)); vals.sort()` from `set_input_data`:
deduplicate, then sort ascending. -/
def sortDedup (l : List Cell) : List Cell :=
  List.insertionSort cellLE l.dedup

/-- `sortDedup` only depends on which cells occur in the input. -/
theorem sortDedup_ext {l₁ l₂ : List Cell} (h : ∀ x, x ∈ l₁ ↔ x ∈ l₂) :
    sortDedup l₁ = sortDedup l₂ := by
  apply List.eq_of_perm_of_sorted (r := cellLE)
  · refine (List.perm_insertionSort _ _).trans (.trans ?_ (List.perm_insertionSort _ _).symm)
    rw [List.perm_ext_iff_of_nodup l₁.nodup_dedup l₂.nodup_dedup]
    intro a; simpa using h a
  · exact List.sorted_insertionSort _ _
  · exact List.sorted_insertionSort _ _

/-- One field of the schema document (`config.yaml`): its kind
(`"set"`, `"param"` or `"result"`), the sets it is indexed by, its dtype,
and an optional short name. -/
structure FieldSpec where
  type : String
  indices : List String
  dtype : String
  short_name : Option String
deriving DecidableEq, Repr

/-- The loaded schema document: a Python dict, field name to spec, modelled
as an insertion-ordered association list (keys unique in any dict-produced
schema). -/
abbrev Schema := List (String × FieldSpec)

/-- `config_data[p]` for queries that read a field's spec; total, with a
vacuous default for names outside the schema (Python would raise `KeyError`,
which no claim exercises). -/
def specOf (config : Schema) (name : String) : FieldSpec :=
  (List.lookup name config).getD ⟨"", [], "", none⟩

/-- An entry of the `input_sand` data model: a set's value series
(`pandas.Series` plus its dtype) or a parameter table
(`pandas.DataFrame`, modelled as its named columns). -/
inductive Entry where
  | series (vals : List Cell) (dtype : String)
  | table (cols : List (String × List Cell))
deriving DecidableEq, Repr

/-- `input_sand`: a Python dict from field name to series/table. -/
abbrev DataModel := List (String × Entry)

/-- Python dict assignment `d[k] = v`: overwrite in place if the key exists,
else append. -/
def assocSet (d : DataModel) (k : String) (v : Entry) : DataModel :=
  match d with
  | [] => [(k, v)]
  | (k', v') :: rest =>
      if k' = k then (k, v) :: rest else (k', v') :: assocSet rest k v

/-- `list(df[col])` for the table stored at `p`: the named column of the
parameter table, `[]` if `p` is absent or holds no such column. -/
def columnOf (d : DataModel) (p : String) (col : String) : List Cell :=
  match List.lookup p d with
  | some (.table cols) => (List.lookup col cols).getD []
  | _ => []

/-- `ignore_cols` of `get_implicit_sets`. -/
def ignoreCols : List String := ["VALUE", "YEAR", "REGIONR"]

/-- `Sand_Interface.get_implicit_sets`, as a function of the attributes it
reads: the members of `sets_list` that are neither ignored columns nor
already keys of `input_sand`. -/
def get_implicit_sets (sets_list : List String) (inputKeys : List String) :
    List String :=
  sets_list.filter fun s =>
    !decide (s ∈ ignoreCols) && !decide (s ∈ inputKeys)

/-- `Sand_Interface.variables_i`: names of the fields of kind `param`
(and `result` when `result` is true) whose declared indices contain
`set_label`. -/
def variables_i (config : Schema) (set_label : String) (result : Bool) :
    List String :=
  let filter_type := if result then ["param", "result"] else ["param"]
  (config.filter fun pf =>
      decide (pf.2.type ∈ filter_type) &&
        decide (set_label ∈ pf.2.indices)).map Prod.fst

/-- `Sand_Interface.field_type_filter`: the sub-schema of fields of the given
kind (the Python dict comprehension keyed by those names). -/
def field_type_filter (config : Schema) (field : String) : Schema :=
  config.filter fun pf => decide (pf.2.type = field)

/-- `Sand_Interface.non_required_fields`, as a function of the attributes it
reads: sets and params absent from the observed `sets_list ++ params_list`,
plus every param/result depending on such an absent set. -/
def non_required_fields (config : Schema) (sets_list params_list : List String) :
    List String :=
  let fields_list := sets_list ++ params_list
  let rm_fields := config.filter fun pf =>
    (decide (pf.2.type = "set") || decide (pf.2.type = "param")) &&
      !decide (pf.1 ∈ fields_list)
  let rm_sets := rm_fields.filter fun pf => decide (pf.2.type = "set")
  let rm_vars := rm_sets.foldl (fun acc pf => acc ++ variables_i config pf.1 true) []
  rm_vars ++ rm_fields.map Prod.fst

/-- `Sand_Interface.__rm_non_fields` (its pure part): the schema restricted
to the fields that survive `non_required_fields`.  The deletion of stale
`data_csv/<field>.csv` artifact files is filesystem I/O outside the
embedding. -/
def rm_non_fields (config : Schema) (sets_list params_list : List String) :
    Schema :=
  let rm := non_required_fields config sets_list params_list
  config.filter fun pf => !decide (pf.1 ∈ rm)

/-- `param_set_dict[p].append(odd)`, creating the key if needed — Python
dict/list update used by `param_sets_dependency`. -/
def assocAppend (d : List (String × List String)) (k v : String) :
    List (String × List String) :=
  match d with
  | [] => [(k, [v])]
  | (k', vs) :: rest =>
      if k' = k then (k', vs ++ [v]) :: rest else (k', vs) :: assocAppend rest k v

/-- `Sand_Interface.param_sets_dependency`: for each parameter in
`odd_params` (in order), record which of `odd_sets` occur among its declared
indices. -/
def param_sets_dependency (config : Schema) (odd_params odd_sets : List String) :
    List (String × List String) :=
  odd_params.foldl
    (fun acc p =>
      odd_sets.foldl
        (fun acc2 odd =>
          if decide (odd ∈ (specOf config p).indices) then assocAppend acc2 p odd
          else acc2)
        acc)
    []

/-- `Sand_Interface.processes_implicit_sets`, as a function of the attributes
it reads (on the first-run path, where `sand_yaml` is not yet set and
`param_sets_dependency` reads `config_yaml`): collect every param/result
depending on some implicit set, drop the `result`-kind fields and the fields
removed by pruning, and build the dependency dictionary. -/
def processes_implicit_sets (config : Schema)
    (sets_list params_list inputKeys : List String) :
    List (String × List String) :=
  let implicit_sets := get_implicit_sets sets_list inputKeys
  let d_param0 := implicit_sets.foldl
    (fun acc imp => acc ++ variables_i config imp true) []
  let result_types := (field_type_filter config "result").map Prod.fst
  let d_param1 := d_param0.filter fun d => !decide (d ∈ result_types)
  let rm_fields := non_required_fields config sets_list params_list
  let d_param2 := d_param1.filter fun d => !decide (d ∈ rm_fields)
  param_sets_dependency config d_param2 implicit_sets

/-- `pd.Series(range(year_i, year_j), dtype=int)` with
`year_i = from_year`, `year_j = to_year + 1`: the inclusive integer range
of configured years. -/
def yearCells (from_year to_year : Int) : List Cell :=
  (List.range (to_year + 1 - from_year).toNat).map fun i =>
    Cell.int (from_year + i)

/-- The parameters recorded as depending on the implicit set `imp` in the
dependency dictionary — the `d_params` list gathered inside the loop of
`set_input_data`. -/
def dparamsOf (param_set_dict : List (String × List String)) (imp : String) :
    List String :=
  (param_set_dict.filter fun ps => decide (imp ∈ ps.2)).map Prod.fst

/-- One iteration of the loop in `set_input_data`: union the `imp` column of
every dependent parameter table (as currently stored in `data`),
deduplicate, sort, and assign the series under key `imp` with the
schema-declared dtype. -/
def implicit_step (config : Schema) (param_set_dict : List (String × List String))
    (data : DataModel) (imp : String) : DataModel :=
  let d_params := dparamsOf param_set_dict imp
  let vals := d_params.foldl (fun acc dp => acc ++ columnOf data dp imp) []
  assocSet data imp (.series (sortDedup vals) (specOf config imp).dtype)

/-- `Sand_Interface.set_input_data`, as a function of the data produced by
`read_input_data` (`input0`, `sets_list`, `params_list`) and the loaded
schema: derive each implicit set by unioning the matching parameter columns
(reading the data model as it is being updated, exactly as the Python loop
mutates `input_data` in place), then assign the synthesized `YEAR` range. -/
def set_input_data (config : Schema) (sets_list params_list : List String)
    (input0 : DataModel) (from_year to_year : Int) : DataModel :=
  let param_set_dict :=
    processes_implicit_sets config sets_list params_list (input0.map Prod.fst)
  let imp_sets := get_implicit_sets sets_list (input0.map Prod.fst)
  let data1 := imp_sets.foldl (implicit_step config param_set_dict) input0
  assocSet data1 "YEAR" (.series (yearCells from_year to_year) "int64")

/-! ## Association-list and fold lemmas -/

theorem lookup_assocSet_self (d : DataModel) (k : String) (v : Entry) :
    List.lookup k (assocSet d k v) = some v := by
  induction d with
  | nil => simp [assocSet, List.lookup]
  | cons hd rest ih =>
      obtain ⟨k', v'⟩ := hd
      by_cases h : k' = k
      · simp [assocSet, h, List.lookup]
      · simp [assocSet, h, List.lookup, Ne.symm h, ih, beq_false_of_ne (Ne.symm h)]

theorem lookup_assocSet_ne (d : DataModel) {q k : String} (v : Entry)
    (h : q ≠ k) : List.lookup q (assocSet d k v) = List.lookup q d := by
  induction d with
  | nil => simp [assocSet, List.lookup, beq_false_of_ne h]
  | cons hd rest ih =>
      obtain ⟨k', v'⟩ := hd
      by_cases h' : k' = k
      · subst h'
        simp [assocSet, List.lookup, beq_false_of_ne h]
      · simp only [assocSet, if_neg h']
        by_cases hq : q = k'
        · simp [List.lookup, hq]
        · simp [List.lookup, beq_false_of_ne hq, ih]

theorem lookup_of_mem_of_nodupKeys {config : Schema} {k : String} {v : FieldSpec}
    (hnd : (config.map Prod.fst).Nodup) (hm : (k, v) ∈ config) :
    List.lookup k config = some v := by
  induction config with
  | nil => simp at hm
  | cons hd rest ih =>
      obtain ⟨k', v'⟩ := hd
      simp only [List.map_cons, List.nodup_cons] at hnd
      rcases List.mem_cons.mp hm with h | h
      · obtain ⟨hk, hv⟩ := Prod.mk.injEq .. ▸ h
        subst hk; subst hv
        simp [List.lookup]
      · have hk : k ≠ k' := by
          rintro rfl
          exact hnd.1 (List.mem_map.mpr ⟨(k, v), h, rfl⟩)
        simp [List.lookup, beq_false_of_ne hk, ih hnd.2 h]

theorem specOf_eq_of_mem {config : Schema} {k : String} {v : FieldSpec}
    (hnd : (config.map Prod.fst).Nodup) (hm : (k, v) ∈ config) :
    specOf config k = v := by
  simp [specOf, lookup_of_mem_of_nodupKeys hnd hm]

theorem foldl_append_eq_flatMap {α β : Type} (f : α → List β) :
    ∀ (l : List α) (init : List β),
      l.foldl (fun acc x => acc ++ f x) init = init ++ l.flatMap f
  | [], init => by simp
  | x :: l, init => by
      simp [foldl_append_eq_flatMap f l (init ++ f x)]

/-! ## Characterizing the dependency dictionary -/

/-- `p` is a key of the dependency dictionary and `s` occurs in its list. -/
def memPS (d : List (String × List String)) (p s : String) : Prop :=
  ∃ l, (p, l) ∈ d ∧ s ∈ l

theorem memPS_assocAppend {d : List (String × List String)} {k v p s : String} :
    memPS (assocAppend d k v) p s ↔ memPS d p s ∨ (p = k ∧ s = v) := by
  induction d with
  | nil =>
      simp only [assocAppend, memPS, List.mem_singleton, Prod.mk.injEq,
        List.not_mem_nil, false_and, exists_const, false_or]
      aesop
  | cons hd rest ih =>
      obtain ⟨k', vs⟩ := hd
      by_cases h : k' = k
      · subst h
        simp only [assocAppend, if_pos rfl, memPS, List.mem_cons,
          Prod.mk.injEq, List.mem_append, List.mem_singleton] at ih ⊢
        aesop
      · simp only [assocAppend, if_neg h, memPS, List.mem_cons,
          Prod.mk.injEq] at ih ⊢
        constructor
        · rintro ⟨l, hm | hm, hs⟩
          · exact .inl ⟨l, .inl hm, hs⟩
          · rcases ih.mp ⟨l, hm, hs⟩ with ⟨l', hm', hs'⟩ | hkv
            · exact .inl ⟨l', .inr hm', hs'⟩
            · exact .inr hkv
        · rintro (⟨l, hm | hm, hs⟩ | hkv)
          · exact ⟨l, .inl hm, hs⟩
          · obtain ⟨l', hm', hs'⟩ := ih.mpr (.inl ⟨l, hm, hs⟩)
            exact ⟨l', .inr hm', hs'⟩
          · obtain ⟨l', hm', hs'⟩ := ih.mpr (.inr hkv)
            exact ⟨l', .inr hm', hs'⟩

theorem memPS_innerFold {k : String} {ind : List String} :
    ∀ (odds : List String) (d : List (String × List String)) {p s : String},
      memPS (odds.foldl
        (fun a o => if decide (o ∈ ind) then assocAppend a k o else a) d) p s ↔
      memPS d p s ∨ (p = k ∧ s ∈ odds ∧ s ∈ ind)
  | [], d, p, s => by simp
  | o :: odds, d, p, s => by
      simp only [List.foldl_cons]
      by_cases ho : o ∈ ind
      · rw [if_pos (by simpa using ho), memPS_innerFold odds, memPS_assocAppend]
        constructor
        · rintro ((h | ⟨hp, hv⟩) | ⟨hp, hso, hsi⟩)
          · exact .inl h
          · exact .inr ⟨hp, by simp [hv], hv ▸ ho⟩
          · exact .inr ⟨hp, by simp [hso], hsi⟩
        · rintro (h | ⟨hp, hso, hsi⟩)
          · exact .inl (.inl h)
          · rcases List.mem_cons.mp hso with rfl | hso
            · exact .inl (.inr ⟨hp, rfl⟩)
            · exact .inr ⟨hp, hso, hsi⟩
      · rw [if_neg (by simpa using ho), memPS_innerFold odds]
        constructor
        · rintro (h | ⟨hp, hso, hsi⟩)
          · exact .inl h
          · exact .inr ⟨hp, by simp [hso], hsi⟩
        · rintro (h | ⟨hp, hso, hsi⟩)
          · exact .inl h
          · rcases List.mem_cons.mp hso with rfl | hso
            · exact absurd hsi ho
            · exact .inr ⟨hp, hso, hsi⟩

theorem memPS_outerFold {config : Schema} {odds : List String} :
    ∀ (ops : List String) (d : List (String × List String)) {p s : String},
      memPS (ops.foldl
        (fun acc q =>
          odds.foldl
            (fun acc2 odd =>
              if decide (odd ∈ (specOf config q).indices) then assocAppend acc2 q odd
              else acc2)
            acc) d) p s ↔
      memPS d p s ∨ (p ∈ ops ∧ s ∈ odds ∧ s ∈ (specOf config p).indices)
  | [], d, p, s => by simp
  | q :: ops, d, p, s => by
      simp only [List.foldl_cons]
      rw [memPS_outerFold ops, memPS_innerFold odds]
      constructor
      · rintro ((h | ⟨rfl, hso, hsi⟩) | ⟨hp, hso, hsi⟩)
        · exact .inl h
        · exact .inr ⟨by simp, hso, hsi⟩
        · exact .inr ⟨by simp [hp], hso, hsi⟩
      · rintro (h | ⟨hp, hso, hsi⟩)
        · exact .inl (.inl h)
        · rcases List.mem_cons.mp hp with rfl | hp
          · exact .inl (.inr ⟨rfl, hso, hsi⟩)
          · exact .inr ⟨hp, hso, hsi⟩

theorem memPS_param_sets_dependency {config : Schema} {ops odds : List String}
    {p s : String} :
    memPS (param_sets_dependency config ops odds) p s ↔
      p ∈ ops ∧ s ∈ odds ∧ s ∈ (specOf config p).indices := by
  rw [param_sets_dependency, memPS_outerFold]
  simp [memPS]

/-! ## Stability of the implicit-set loop -/

theorem fieldSpec_unique_of_nodupKeys {config : Schema} {k : String}
    {v1 v2 : FieldSpec} (hnd : (config.map Prod.fst).Nodup)
    (h1 : (k, v1) ∈ config) (h2 : (k, v2) ∈ config) : v1 = v2 := by
  have e1 := lookup_of_mem_of_nodupKeys hnd h1
  have e2 := lookup_of_mem_of_nodupKeys hnd h2
  exact Option.some.inj (e1.symm.trans e2)

theorem implicit_step_eq (config : Schema) (psd : List (String × List String))
    (d : DataModel) (imp : String) :
    implicit_step config psd d imp =
      assocSet d imp (.series
        (sortDedup ((dparamsOf psd imp).foldl
          (fun acc dp => acc ++ columnOf d dp imp) []))
        (specOf config imp).dtype) := rfl

theorem lookup_implicit_step_ne {config : Schema}
    {psd : List (String × List String)} {data : DataModel} {q imp : String}
    (h : q ≠ imp) :
    List.lookup q (implicit_step config psd data imp) = List.lookup q data := by
  rw [implicit_step_eq]
  exact lookup_assocSet_ne _ _ h

theorem lookup_foldl_steps_ne {config : Schema}
    {psd : List (String × List String)} {q : String} :
    ∀ (imps : List String) (data : DataModel), (∀ t ∈ imps, q ≠ t) →
      List.lookup q (imps.foldl (implicit_step config psd) data) =
        List.lookup q data
  | [], _, _ => rfl
  | t :: imps, data, h => by
      simp only [List.foldl_cons]
      rw [lookup_foldl_steps_ne imps _
          (fun r hr => h r (List.mem_cons_of_mem _ hr)),
        lookup_implicit_step_ne (h t (List.mem_cons_self _ _))]

theorem columnOf_congr {d1 d0 : DataModel} {p col : String}
    (h : List.lookup p d1 = List.lookup p d0) :
    columnOf d1 p col = columnOf d0 p col := by
  unfold columnOf
  rw [h]

theorem foldl_columns_congr {d1 d0 : DataModel} {s : String} {dps : List String}
    (h : ∀ dp ∈ dps, columnOf d1 dp s = columnOf d0 dp s) :
    dps.foldl (fun acc dp => acc ++ columnOf d1 dp s) [] =
      dps.foldl (fun acc dp => acc ++ columnOf d0 dp s) [] := by
  rw [foldl_append_eq_flatMap, foldl_append_eq_flatMap]
  exact congrArg _ (List.flatMap_congr h)

/-- The key lemma about the loop of `set_input_data`: when every candidate
implicit set is schema-declared as a `set` while all its dependent parameters
are of kind `param` (so the loop's in-place series assignments never clobber
a parameter table that a later iteration still reads), the series finally
stored under `s` is the sorted deduplicated union of the dependent
parameters' `s`-columns as they stood in the initial data model `d0`. -/
theorem lookup_foldl_implicit (config : Schema)
    (psd : List (String × List String)) (d0 : DataModel) (s : String) :
    ∀ (imps : List String) (d : DataModel),
      s ∈ imps →
      (∀ t ∈ imps, (specOf config t).type = "set") →
      (∀ p ∈ dparamsOf psd s, (specOf config p).type = "param") →
      (∀ p, (specOf config p).type = "param" →
        List.lookup p d = List.lookup p d0) →
      List.lookup s (imps.foldl (implicit_step config psd) d) =
        some (.series
          (sortDedup ((dparamsOf psd s).foldl
            (fun acc dp => acc ++ columnOf d0 dp s) []))
          (specOf config s).dtype)
  | [], _, hs, _, _, _ => absurd hs (List.not_mem_nil s)
  | t :: imps, d, hs, hset, hdp, hinv => by
      simp only [List.foldl_cons]
      have hinv' : ∀ p, (specOf config p).type = "param" →
          List.lookup p (implicit_step config psd d t) = List.lookup p d0 := by
        intro p hp
        have hne : p ≠ t := by
          rintro rfl
          rw [hset p (List.mem_cons_self _ _)] at hp
          exact absurd hp (by decide)
        rw [lookup_implicit_step_ne hne]
        exact hinv p hp
      by_cases hmem : s ∈ imps
      · exact lookup_foldl_implicit config psd d0 s imps _ hmem
          (fun r hr => hset r (List.mem_cons_of_mem _ hr)) hdp hinv'
      · have hst : s = t := (List.mem_cons.mp hs).resolve_right hmem
        subst hst
        rw [lookup_foldl_steps_ne imps _
          (fun r hr e => hmem (by rw [e]; exact hr))]
        rw [implicit_step_eq]
        rw [foldl_columns_congr
          (fun dp hdpm => columnOf_congr (hinv dp (hdp dp hdpm)))]
        exact lookup_assocSet_self _ _ _

/-! ## Which parameters feed an implicit set -/

theorem mem_variables_i {config : Schema} {s p : String} {res : Bool} :
    p ∈ variables_i config s res ↔
      ∃ fts, (p, fts) ∈ config ∧
        fts.type ∈ (if res then ["param", "result"] else ["param"]) ∧
        s ∈ fts.indices := by
  simp only [variables_i, List.mem_map, List.mem_filter, Bool.and_eq_true,
    decide_eq_true_eq]
  constructor
  · rintro ⟨⟨q, fts⟩, ⟨hm, ht, hi⟩, rfl⟩
    exact ⟨fts, hm, ht, hi⟩
  · rintro ⟨fts, hm, ht, hi⟩
    exact ⟨(p, fts), ⟨hm, ht, hi⟩, rfl⟩

theorem mem_dparamsOf {psd : List (String × List String)} {p s : String} :
    p ∈ dparamsOf psd s ↔ memPS psd p s := by
  simp only [dparamsOf, memPS, List.mem_map, List.mem_filter, decide_eq_true_eq]
  constructor
  · rintro ⟨⟨q, l⟩, ⟨hm, hsl⟩, rfl⟩
    exact ⟨l, hm, hsl⟩
  · rintro ⟨l, hm, hsl⟩
    exact ⟨(p, l), ⟨hm, hsl⟩, rfl⟩

theorem mem_resultKeys {config : Schema} {p : String} :
    p ∈ (field_type_filter config "result").map Prod.fst ↔
      ∃ fts, (p, fts) ∈ config ∧ fts.type = "result" := by
  simp only [field_type_filter, List.mem_map, List.mem_filter, decide_eq_true_eq]
  constructor
  · rintro ⟨⟨q, fts⟩, ⟨hm, ht⟩, rfl⟩
    exact ⟨fts, hm, ht⟩
  · rintro ⟨fts, hm, ht⟩
    exact ⟨(p, fts), ⟨hm, ht⟩, rfl⟩

theorem mem_get_implicit_sets {sets_list inputKeys : List String} {s : String} :
    s ∈ get_implicit_sets sets_list inputKeys ↔
      s ∈ sets_list ∧ s ∉ ignoreCols ∧ s ∉ inputKeys := by
  simp [get_implicit_sets, and_assoc]

/-- The qualifying parameters of the claim, stated from its words: fields of
kind `param` (never `result`) whose schema-declared indices contain `s` and
which were not removed by pruning.  (Refinement target only; everything else
in this file is translated from the source.) -/
def specQualifyingParams (config : Schema) (sets_list params_list : List String)
    (s : String) : List String :=
  let rm := non_required_fields config sets_list params_list
  (config.filter fun pf =>
      decide (pf.2.type = "param") && decide (s ∈ pf.2.indices) &&
        !decide (pf.1 ∈ rm)).map Prod.fst

theorem mem_specQualifyingParams {config : Schema}
    {sets_list params_list : List String} {s p : String} :
    p ∈ specQualifyingParams config sets_list params_list s ↔
      ∃ fts, (p, fts) ∈ config ∧ fts.type = "param" ∧ s ∈ fts.indices ∧
        p ∉ non_required_fields config sets_list params_list := by
  simp only [specQualifyingParams, List.mem_map, List.mem_filter,
    Bool.and_eq_true, Bool.not_eq_true', decide_eq_false_iff_not,
    decide_eq_true_eq]
  constructor
  · rintro ⟨⟨q, fts⟩, ⟨hm, ⟨ht, hi⟩, hrm⟩, rfl⟩
    exact ⟨fts, hm, ht, hi, hrm⟩
  · rintro ⟨fts, hm, ht, hi, hrm⟩
    exact ⟨(p, fts), ⟨hm, ⟨ht, hi⟩, hrm⟩, rfl⟩

/-- Under unique schema keys, the parameters the loop of `set_input_data`
unions for an implicit candidate `s` are exactly the claim's qualifying
parameters. -/
theorem dparams_eq_specQualifying {config : Schema}
    {sets_list params_list inputKeys : List String} {s p : String}
    (hnd : (config.map Prod.fst).Nodup)
    (hs : s ∈ get_implicit_sets sets_list inputKeys) :
    (p ∈ dparamsOf
        (processes_implicit_sets config sets_list params_list inputKeys) s ↔
      p ∈ specQualifyingParams config sets_list params_list s) := by
  rw [mem_dparamsOf, mem_specQualifyingParams]
  simp only [processes_implicit_sets, memPS_param_sets_dependency,
    List.mem_filter, Bool.not_eq_true', decide_eq_false_iff_not]
  rw [foldl_append_eq_flatMap, List.nil_append]
  simp only [List.mem_flatMap]
  constructor
  · rintro ⟨⟨⟨⟨imp, himp, hvar⟩, hnres⟩, hnrm⟩, hsimp, hsind⟩
    obtain ⟨fts, hm, ht, _⟩ := mem_variables_i.mp hvar
    have hne : fts.type ≠ "result" := fun hres => hnres (mem_resultKeys.mpr ⟨fts, hm, hres⟩)
    have htp : fts.type = "param" := by
      simp only [if_true, List.mem_cons, List.not_mem_nil, or_false] at ht
      rcases ht with h | h
      · exact h
      · exact absurd h hne
    have hspec : specOf config p = fts := specOf_eq_of_mem hnd hm
    exact ⟨fts, hm, htp, by rw [← hspec]; exact hsind, hnrm⟩
  · rintro ⟨fts, hm, htp, hsind, hnrm⟩
    have hspec : specOf config p = fts := specOf_eq_of_mem hnd hm
    refine ⟨⟨⟨⟨s, hs, ?_⟩, ?_⟩, hnrm⟩, hs, by rw [hspec]; exact hsind⟩
    · exact mem_variables_i.mpr ⟨fts, hm, by simp [htp], hsind⟩
    · intro hres
      obtain ⟨fts', hm', ht'⟩ := mem_resultKeys.mp hres
      have : fts' = fts := fieldSpec_unique_of_nodupKeys hnd hm' hm
      rw [this, htp] at ht'
      exact absurd ht' (by decide)

/-- **C1.** For every implicit set name `s` returned by `get_implicit_sets`,
`set_input_data` assigns entry `s` of the data model a series equal to the
union of column `s` taken over exactly the parameter tables whose
schema-declared indices contain `s`, whose schema kind is `param` (never
`result`) and which were not removed by pruning; the union is deduplicated,
sorted ascending and cast to the set's schema-declared dtype.  Hypotheses:
the schema's keys are unique (any Python-dict-loaded schema satisfies this)
and every implicit candidate is schema-declared with kind `set` (the spec's
definition of an implicit set). -/
theorem implicit_set_entry_is_pruned_param_union
    (config : Schema) (sets_list params_list : List String)
    (input0 : DataModel) (from_year to_year : Int) (s : String)
    (hnd : (config.map Prod.fst).Nodup)
    (hset : ∀ t ∈ get_implicit_sets sets_list (input0.map Prod.fst),
      (specOf config t).type = "set")
    (hs : s ∈ get_implicit_sets sets_list (input0.map Prod.fst)) :
    List.lookup s
        (set_input_data config sets_list params_list input0 from_year to_year) =
      some (.series
        (sortDedup ((specQualifyingParams config sets_list params_list s).foldl
          (fun acc p => acc ++ columnOf input0 p s) []))
        (specOf config s).dtype) := by
  have hne : s ≠ "YEAR" := by
    have h := (mem_get_implicit_sets.mp hs).2.1
    intro e
    exact h (by rw [e]; simp [ignoreCols])
  simp only [set_input_data]
  rw [lookup_assocSet_ne _ _ hne]
  have hdp : ∀ p ∈ dparamsOf
      (processes_implicit_sets config sets_list params_list (input0.map Prod.fst)) s,
      (specOf config p).type = "param" := by
    intro p hp
    obtain ⟨fts, hm, htp, -, -⟩ :=
      mem_specQualifyingParams.mp ((dparams_eq_specQualifying hnd hs).mp hp)
    rw [specOf_eq_of_mem hnd hm]
    exact htp
  rw [lookup_foldl_implicit config _ input0 s _ input0 hs hset hdp (fun _ _ => rfl)]
  congr 2
  apply sortDedup_ext
  intro x
  rw [foldl_append_eq_flatMap, foldl_append_eq_flatMap, List.nil_append,
    List.nil_append]
  simp only [List.mem_flatMap]
  constructor
  · rintro ⟨p, hp, hx⟩
    exact ⟨p, (dparams_eq_specQualifying hnd hs).mp hp, hx⟩
  · rintro ⟨p, hp, hx⟩
    exact ⟨p, (dparams_eq_specQualifying hnd hs).mpr hp, hx⟩

/-! ## Claim witnesses need concrete data -/

/-- Concrete schema used by the witness instances. -/
def cfgW : Schema :=
  [("MODE_OF_OPERATION", ⟨"set", [], "str", none⟩),
   ("TECHNOLOGY", ⟨"set", [], "str", none⟩),
   ("P1", ⟨"param", ["TECHNOLOGY", "MODE_OF_OPERATION", "YEAR"], "float", none⟩),
   ("P2", ⟨"param", ["TECHNOLOGY", "MODE_OF_OPERATION", "YEAR"], "float", none⟩),
   ("R1", ⟨"result", ["MODE_OF_OPERATION"], "float", none⟩)]

/-- Concrete raw data model used by the witness instances: `P1` and `P2`
disagree on which `MODE_OF_OPERATION` values exist. -/
def input0W : DataModel :=
  [("TECHNOLOGY", .series [.str "T1"] "object"),
   ("P1", .table [("TECHNOLOGY", [.str "T1", .str "T1"]),
                  ("MODE_OF_OPERATION", [.str "2", .str "1"])]),
   ("P2", .table [("TECHNOLOGY", [.str "T1"]),
                  ("MODE_OF_OPERATION", [.str "3"])])]

theorem implicit_set_entry_is_pruned_param_union_witness :
    ((cfgW.map Prod.fst).Nodup ∧
      (∀ t ∈ get_implicit_sets ["TECHNOLOGY", "MODE_OF_OPERATION", "YEAR"]
          (input0W.map Prod.fst), (specOf cfgW t).type = "set") ∧
      "MODE_OF_OPERATION" ∈ get_implicit_sets
        ["TECHNOLOGY", "MODE_OF_OPERATION", "YEAR"] (input0W.map Prod.fst)) ∧
    List.lookup "MODE_OF_OPERATION"
        (set_input_data cfgW ["TECHNOLOGY", "MODE_OF_OPERATION", "YEAR"]
          ["P1", "P2"] input0W 2015 2017) =
      some (.series
        (sortDedup ((specQualifyingParams cfgW
            ["TECHNOLOGY", "MODE_OF_OPERATION", "YEAR"] ["P1", "P2"]
            "MODE_OF_OPERATION").foldl
          (fun acc p => acc ++ columnOf input0W p "MODE_OF_OPERATION") []))
        (specOf cfgW "MODE_OF_OPERATION").dtype) :=
  ⟨⟨by decide, by decide, by decide⟩,
   implicit_set_entry_is_pruned_param_union cfgW
     ["TECHNOLOGY", "MODE_OF_OPERATION", "YEAR"] ["P1", "P2"] input0W
     2015 2017 "MODE_OF_OPERATION" (by decide) (by decide) (by decide)⟩

/-- **C5.** After `set_input_data`, the `YEAR` entry is the series of the
inclusive integer range `[from_year, to_year]` configured at construction,
independent of any sheet content (`input0` is arbitrary), and the final
dict assignment happens after the implicit-set loop, overwriting any
earlier `YEAR` entry.  The second conjunct checks the spec's example
`from_year = 2015, to_year = 2017`. -/
theorem year_entry_is_configured_range
    (config : Schema) (sets_list params_list : List String)
    (input0 : DataModel) (from_year to_year : Int) :
    List.lookup "YEAR"
        (set_input_data config sets_list params_list input0 from_year to_year) =
      some (.series (yearCells from_year to_year) "int64") ∧
    yearCells 2015 2017 = [.int 2015, .int 2016, .int 2017] := by
  refine ⟨?_, by decide⟩
  simp only [set_input_data]
  exact lookup_assocSet_self _ _ _

/-- **C10.** `get_implicit_sets` never returns the names `"VALUE"`, `"YEAR"`
or `"REGIONR"`, for every workbook-derived `sets_list` and every data-model
key set — so those columns never receive a derived implicit-set entry. -/
theorem implicit_sets_never_ignored
    (sets_list inputKeys : List String) (s : String)
    (hs : s ∈ get_implicit_sets sets_list inputKeys) :
    s ≠ "VALUE" ∧ s ≠ "YEAR" ∧ s ≠ "REGIONR" := by
  have h := (mem_get_implicit_sets.mp hs).2.1
  refine ⟨?_, ?_, ?_⟩ <;> rintro rfl <;> exact h (by simp [ignoreCols])

theorem implicit_sets_never_ignored_witness :
    "TECHNOLOGY" ∈ get_implicit_sets
        ["REGIONR", "TECHNOLOGY", "VALUE", "YEAR"] [] ∧
      ("TECHNOLOGY" ≠ "VALUE" ∧ "TECHNOLOGY" ≠ "YEAR" ∧
        "TECHNOLOGY" ≠ "REGIONR") :=
  ⟨by decide,
   implicit_sets_never_ignored ["REGIONR", "TECHNOLOGY", "VALUE", "YEAR"] []
     "TECHNOLOGY" (by decide)⟩

/-! ## Pruning -/

theorem mem_non_required_of_absent {config : Schema} {sl pl : List String}
    {pf : String × FieldSpec} (hm : pf ∈ config)
    (ht : (decide (pf.2.type = "set") || decide (pf.2.type = "param")) = true)
    (ha : pf.1 ∉ sl ++ pl) :
    pf.1 ∈ non_required_fields config sl pl := by
  simp only [non_required_fields]
  refine List.mem_append.mpr (.inr ?_)
  exact List.mem_map.mpr ⟨pf, List.mem_filter.mpr ⟨hm, by simp [ht, ha]⟩, rfl⟩

/-- **C9.** Pruning is idempotent: pruning an already-pruned schema with the
same active-field set (`sets_list` plus `params_list`) removes nothing
further and returns a schema identical to its input. -/
theorem prune_idempotent (config : Schema) (sets_list params_list : List String) :
    rm_non_fields (rm_non_fields config sets_list params_list)
        sets_list params_list =
      rm_non_fields config sets_list params_list := by
  have hf : (rm_non_fields config sets_list params_list).filter (fun pf =>
      (decide (pf.2.type = "set") || decide (pf.2.type = "param")) &&
        !decide (pf.1 ∈ sets_list ++ params_list)) = [] := by
    rw [List.filter_eq_nil_iff]
    intro pf hpf hg
    simp only [rm_non_fields, List.mem_filter, Bool.not_eq_true',
      decide_eq_false_iff_not] at hpf
    obtain ⟨hmc, hkeep⟩ := hpf
    rw [Bool.and_eq_true] at hg
    obtain ⟨ht, ha⟩ := hg
    refine hkeep (mem_non_required_of_absent hmc ht ?_)
    simpa using ha
  have hnil : non_required_fields (rm_non_fields config sets_list params_list)
      sets_list params_list = [] := by
    simp only [non_required_fields]
    rw [hf]
    simp
  conv_lhs => rw [rm_non_fields, hnil]
  simp

/-- Schema on which claim C4 fails as stated: set `T` is active, set `S` is
not; `S` is removed, yet the remaining set `T` declares `S` among its
indices (only params/results depending on a removed set are removed). -/
def cfgC4 : Schema :=
  [("S", ⟨"set", [], "str", none⟩),
   ("T", ⟨"set", ["S"], "str", none⟩)]

/-- **C4, counterexample.** `S` is in the removal set, yet the pruned schema
keeps field `T` whose declared indices contain `S` — so it is not true that
no remaining field has a removed field among its indices. -/
theorem removed_field_survives_as_index :
    "S" ∈ non_required_fields cfgC4 ["T"] [] ∧
    rm_non_fields cfgC4 ["T"] [] =
      [("T", ⟨"set", ["S"], "str", none⟩)] ∧
    "S" ∈ (FieldSpec.mk "set" ["S"] "str" none).indices := by
  decide

/-- **C4 (amended).** For every schema with unique keys and every *set* `f`
in the removal set computed by the pruner, no *param or result* remaining in
the pruned schema has `f` among its declared indices: every param or result
that indexes by a removed set is itself removed.  (As stated the claim is
false — see `removed_field_survives_as_index`: a remaining field may index
by a removed `param`, and a remaining *set* may index by a removed set.) -/
theorem removed_set_not_index_of_remaining
    (config : Schema) (sets_list params_list : List String)
    (f g : String) (gts : FieldSpec)
    (hnd : (config.map Prod.fst).Nodup)
    (hf : f ∈ non_required_fields config sets_list params_list)
    (hft : (specOf config f).type = "set")
    (hg : (g, gts) ∈ rm_non_fields config sets_list params_list)
    (hgt : gts.type = "param" ∨ gts.type = "result") :
    f ∉ gts.indices := by
  intro hidx
  simp only [rm_non_fields, List.mem_filter, Bool.not_eq_true',
    decide_eq_false_iff_not] at hg
  obtain ⟨hgc, hgkeep⟩ := hg
  apply hgkeep
  have hfmem : ∃ ffts, (f, ffts) ∈ config ∧
      ((decide (ffts.type = "set") || decide (ffts.type = "param")) &&
        !decide (f ∈ sets_list ++ params_list)) = true := by
    simp only [non_required_fields] at hf
    rcases List.mem_append.mp hf with hvars | hdirect
    · exfalso
      rw [foldl_append_eq_flatMap, List.nil_append] at hvars
      obtain ⟨spf, hspf, hfv⟩ := List.mem_flatMap.mp hvars
      obtain ⟨fts, hm, htm, hi⟩ := mem_variables_i.mp hfv
      rw [specOf_eq_of_mem hnd hm] at hft
      rw [hft] at htm
      simp at htm
    · obtain ⟨⟨q, ffts⟩, hqmem, hq⟩ := List.mem_map.mp hdirect
      obtain ⟨hmem, hpred⟩ := List.mem_filter.mp hqmem
      exact ⟨ffts, by rw [← hq]; exact hmem, by rw [← hq]; exact hpred⟩
  obtain ⟨ffts, hfc, hfpred⟩ := hfmem
  have hffts : ffts.type = "set" := by
    rw [specOf_eq_of_mem hnd hfc] at hft
    exact hft
  have hgv : g ∈ variables_i config f true := by
    apply mem_variables_i.mpr
    refine ⟨gts, hgc, ?_, hidx⟩
    rcases hgt with h | h <;> simp [h]
  simp only [non_required_fields]
  refine List.mem_append.mpr (.inl ?_)
  rw [foldl_append_eq_flatMap, List.nil_append]
  refine List.mem_flatMap.mpr ⟨(f, ffts), ?_, hgv⟩
  exact List.mem_filter.mpr ⟨List.mem_filter.mpr ⟨hfc, hfpred⟩, by simp [hffts]⟩

/-- Schema for the witness of the amended C4: `S` is removed (inactive set),
`P` is an active param indexing only by the active set `REGION`. -/
def cfgC4W : Schema :=
  [("S", ⟨"set", [], "str", none⟩),
   ("REGION", ⟨"set", [], "str", none⟩),
   ("P", ⟨"param", ["REGION"], "float", none⟩)]

theorem removed_set_not_index_of_remaining_witness :
    ((cfgC4W.map Prod.fst).Nodup ∧
      "S" ∈ non_required_fields cfgC4W ["REGION"] ["P"] ∧
      (specOf cfgC4W "S").type = "set" ∧
      ("P", FieldSpec.mk "param" ["REGION"] "float" none) ∈
        rm_non_fields cfgC4W ["REGION"] ["P"] ∧
      (FieldSpec.mk "param" ["REGION"] "float" none).type = "param") ∧
    "S" ∉ (FieldSpec.mk "param" ["REGION"] "float" none).indices :=
  ⟨⟨by decide, by decide, by decide, by decide, by decide⟩,
   removed_set_not_index_of_remaining cfgC4W ["REGION"] ["P"] "S" "P"
     (FieldSpec.mk "param" ["REGION"] "float" none)
     (by decide) (by decide) (by decide) (by decide) (.inl (by decide))⟩

/-! ## SetResolver: sentinel split of the combined Emissions column -/

/-- `pat` occurs at the start of the character list. -/
def listStartsWith : List Char → List Char → Bool
  | [], _ => true
  | _ :: _, [] => false
  | p :: ps, c :: cs => p == c && listStartsWith ps cs

/-- `pat` occurs somewhere in the character list. -/
def listHasSub (pat : List Char) : List Char → Bool
  | [] => listStartsWith pat []
  | c :: cs => listStartsWith pat (c :: cs) || listHasSub pat cs

/-- Python's substring test `pat in s`, on the underlying characters. -/
def strHasSub (s pat : String) : Bool := listHasSub pat.data s.data

/-- The failure of `__split_emission_region` when a sentinel marker is
missing: evaluating `col[i:j]` with `m`/`i` or `j` never assigned raises
`UnboundLocalError` — the spec's `MalformedSentinelLayout` condition. -/
inductive SplitError where
  | malformedSentinelLayout
deriving DecidableEq, Repr

/-- One iteration of the `for n, row in enumerate(col)` loop of
`__split_emission_region`: remember the (last) index of a row equal to
`"Region"` and the (last) index of a row containing `"ResultsPath"`
(`elif`: a `"Region"` row is not tested for the substring). -/
def sentinelStep (st : Option Nat × Option Nat) (n : Nat) (r : String) :
    Option Nat × Option Nat :=
  if r = "Region" then (some n, st.2)
  else if strHasSub r "ResultsPath" then (st.1, some n)
  else st

/-- The whole scan loop, starting at row index `n`. -/
def scanSentinels : Nat → (Option Nat × Option Nat) → List String →
    Option Nat × Option Nat
  | _, st, [] => st
  | n, st, r :: rs => scanSentinels (n + 1) (sentinelStep st n r) rs

/-- `Sand_Interface.__split_emission_region` on the (string-filtered)
combined Emissions column: with `m` the last `"Region"` row and `j` the last
`"ResultsPath"` row, emission is rows `[0, m)` and region is rows
`[m+1, j)`; if either sentinel never occurs, the Python function dies with
`UnboundLocalError` instead of returning a split. -/
def splitEmissionRegion (col : List String) :
    Except SplitError (List String × List String) :=
  match scanSentinels 0 (none, none) col with
  | (some m, some j) => .ok (col.take m, (col.drop (m + 1)).take (j - (m + 1)))
  | _ => .error .malformedSentinelLayout

theorem scanSentinels_fst_stable :
    ∀ (rs : List String) (n : Nat) (st : Option Nat × Option Nat),
      (∀ r ∈ rs, r ≠ "Region") → (scanSentinels n st rs).1 = st.1
  | [], _, _, _ => rfl
  | r :: rs, n, st, h => by
      have hr := h r (List.mem_cons_self _ _)
      rw [show scanSentinels n st (r :: rs) =
          scanSentinels (n + 1) (sentinelStep st n r) rs from rfl,
        scanSentinels_fst_stable rs (n + 1) _
          (fun x hx => h x (List.mem_cons_of_mem _ hx))]
      simp only [sentinelStep, if_neg hr]
      by_cases hc : strHasSub r "ResultsPath" = true
      · rw [if_pos hc]
      · rw [if_neg hc]

theorem scanSentinels_snd_stable :
    ∀ (rs : List String) (n : Nat) (st : Option Nat × Option Nat),
      (∀ r ∈ rs, r = "Region" ∨ strHasSub r "ResultsPath" = false) →
      (scanSentinels n st rs).2 = st.2
  | [], _, _, _ => rfl
  | r :: rs, n, st, h => by
      rw [show scanSentinels n st (r :: rs) =
          scanSentinels (n + 1) (sentinelStep st n r) rs from rfl,
        scanSentinels_snd_stable rs (n + 1) _
          (fun x hx => h x (List.mem_cons_of_mem _ hx))]
      rcases h r (List.mem_cons_self _ _) with hr | hr
      · simp only [sentinelStep, if_pos hr]
      · simp only [sentinelStep]
        by_cases hreg : r = "Region"
        · rw [if_pos hreg]
        · rw [if_neg hreg, if_neg (by simp [hr])]

theorem scanSentinels_fst_char :
    ∀ (rs : List String) (n : Nat) (st : Option Nat × Option Nat) (M : Nat),
      (∀ p ∈ List.enumFrom n rs, (p.2 = "Region" ↔ p.1 = M)) →
      n ≤ M → M < n + rs.length →
      (scanSentinels n st rs).1 = some M
  | [], n, _, M, _, hle, hlt => by
      simp only [List.length_nil, Nat.add_zero] at hlt
      omega
  | r :: rs, n, st, M, hchar, hle, hlt => by
      have hhead : (n, r) ∈ List.enumFrom n (r :: rs) :=
        List.mem_cons_self _ _
      by_cases hr : r = "Region"
      · have hnM : n = M := (hchar (n, r) hhead).mp hr
        have hrest : ∀ x ∈ rs, x ≠ "Region" := by
          intro x hx hxr
          obtain ⟨i, hi, hieq⟩ := List.mem_iff_getElem.mp hx
          have hp : (n + 1 + i, x) ∈ List.enumFrom (n + 1) rs := by
            rw [List.mk_mem_enumFrom_iff_le_and_getElem?_sub]
            refine ⟨by omega, ?_⟩
            rw [show n + 1 + i - (n + 1) = i from by omega]
            rw [List.getElem?_eq_getElem hi, hieq]
          have hM := (hchar _ (List.mem_cons_of_mem _ hp)).mp hxr
          omega
        rw [show scanSentinels n st (r :: rs) =
            scanSentinels (n + 1) (sentinelStep st n r) rs from rfl,
          scanSentinels_fst_stable rs (n + 1) _ hrest]
        simp only [sentinelStep, if_pos hr]
        rw [hnM]
      · have hne : n ≠ M := fun e => hr ((hchar (n, r) hhead).mpr e)
        have hlt' : M < n + 1 + rs.length := by
          simp only [List.length_cons] at hlt
          omega
        exact scanSentinels_fst_char rs (n + 1) _ M
          (fun p hp => hchar p (List.mem_cons_of_mem _ hp)) (by omega) hlt'

theorem scanSentinels_snd_char :
    ∀ (rs : List String) (n : Nat) (st : Option Nat × Option Nat) (J : Nat),
      (∀ p ∈ List.enumFrom n rs, (strHasSub p.2 "ResultsPath" = true ↔ p.1 = J)) →
      n ≤ J → J < n + rs.length →
      (scanSentinels n st rs).2 = some J
  | [], n, _, J, _, hle, hlt => by
      simp only [List.length_nil, Nat.add_zero] at hlt
      omega
  | r :: rs, n, st, J, hchar, hle, hlt => by
      have hhead : (n, r) ∈ List.enumFrom n (r :: rs) :=
        List.mem_cons_self _ _
      by_cases hsub : strHasSub r "ResultsPath" = true
      · have hnJ : n = J := (hchar (n, r) hhead).mp hsub
        have hrest : ∀ x ∈ rs, x = "Region" ∨ strHasSub x "ResultsPath" = false := by
          intro x hx
          by_cases hxs : strHasSub x "ResultsPath" = true
          · exfalso
            obtain ⟨i, hi, hieq⟩ := List.mem_iff_getElem.mp hx
            have hp : (n + 1 + i, x) ∈ List.enumFrom (n + 1) rs := by
              rw [List.mk_mem_enumFrom_iff_le_and_getElem?_sub]
              refine ⟨by omega, ?_⟩
              rw [show n + 1 + i - (n + 1) = i from by omega]
              rw [List.getElem?_eq_getElem hi, hieq]
            have hJ := (hchar _ (List.mem_cons_of_mem _ hp)).mp hxs
            omega
          · exact .inr (by simpa using hxs)
        have hreg : r ≠ "Region" := by
          intro e
          rw [e] at hsub
          exact absurd hsub (by decide)
        rw [show scanSentinels n st (r :: rs) =
            scanSentinels (n + 1) (sentinelStep st n r) rs from rfl,
          scanSentinels_snd_stable rs (n + 1) _ hrest]
        simp only [sentinelStep, if_neg hreg, if_pos hsub]
        rw [hnJ]
      · have hne : n ≠ J := fun e => hsub ((hchar (n, r) hhead).mpr e)
        have hlt' : J < n + 1 + rs.length := by
          simp only [List.length_cons] at hlt
          omega
        exact scanSentinels_snd_char rs (n + 1) _ J
          (fun p hp => hchar p (List.mem_cons_of_mem _ hp)) (by omega) hlt'

/-- **C2.** When the combined Emissions column holds the literal `"Region"`
exactly at row `m` and a cell containing the substring `"ResultsPath"`
exactly at row `j` (with `j` later than `m`), the split yields
EMISSION = rows `[0, m)` and REGION = rows `[m+1, j)`. -/
theorem splitEmissionRegion_char (col : List String) (m j : Nat)
    (hm : ∀ p ∈ List.enumFrom 0 col, (p.2 = "Region" ↔ p.1 = m))
    (hj : ∀ p ∈ List.enumFrom 0 col, (strHasSub p.2 "ResultsPath" = true ↔ p.1 = j))
    (hmlt : m < col.length) (hjlt : j < col.length) (hmj : m < j) :
    splitEmissionRegion col =
      .ok (col.take m, (col.drop (m + 1)).take (j - (m + 1))) := by
  have h1 := scanSentinels_fst_char col 0 (none, none) m hm (Nat.zero_le _)
    (by simpa using hmlt)
  have h2 := scanSentinels_snd_char col 0 (none, none) j hj (Nat.zero_le _)
    (by simpa using hjlt)
  unfold splitEmissionRegion
  rw [show scanSentinels 0 (none, none) col = (some m, some j) from
    Prod.ext h1 h2]

/-- The column of the spec's sentinel-split scenario. -/
def colW2 : List String :=
  ["CO2", "CH4", "Region", "RE1", "RE2", "ResultsPath/2015"]

theorem splitEmissionRegion_char_witness :
    ((∀ p ∈ List.enumFrom 0 colW2, (p.2 = "Region" ↔ p.1 = 2)) ∧
      (∀ p ∈ List.enumFrom 0 colW2,
        (strHasSub p.2 "ResultsPath" = true ↔ p.1 = 5)) ∧
      2 < colW2.length ∧ 5 < colW2.length ∧ 2 < 5) ∧
    splitEmissionRegion colW2 = .ok (["CO2", "CH4"], ["RE1", "RE2"]) :=
  ⟨⟨by decide, by decide, by decide, by decide, by decide⟩,
   (splitEmissionRegion_char colW2 2 5 (by decide) (by decide) (by decide)
      (by decide) (by decide)).trans rfl⟩

/-- **C7.** When the combined Emissions column lacks the `"Region"` marker
or lacks any `"ResultsPath"` cell, the split fails (`UnboundLocalError` in
the source — the `MalformedSentinelLayout` condition) rather than returning
a wrong EMISSION/REGION split. -/
theorem splitEmissionRegion_missing_sentinel_errors (col : List String)
    (h : (∀ r ∈ col, r ≠ "Region") ∨
      (∀ r ∈ col, strHasSub r "ResultsPath" = false)) :
    splitEmissionRegion col = .error .malformedSentinelLayout := by
  unfold splitEmissionRegion
  rcases h with h | h
  · have h1 := scanSentinels_fst_stable col 0 (none, none) h
    rcases hsc : scanSentinels 0 (none, none) col with ⟨a, b⟩
    rw [hsc] at h1
    simp only at h1
    subst h1
    cases b <;> rfl
  · have h2 := scanSentinels_snd_stable col 0 (none, none)
      (fun r hr => .inr (h r hr))
    rcases hsc : scanSentinels 0 (none, none) col with ⟨a, b⟩
    rw [hsc] at h2
    simp only at h2
    subst h2
    cases a <;> rfl

theorem splitEmissionRegion_missing_sentinel_errors_witness :
    (∀ r ∈ ["CO2", "CH4"], r ≠ "Region") ∧
    splitEmissionRegion ["CO2", "CH4"] = .error .malformedSentinelLayout :=
  ⟨by decide,
   splitEmissionRegion_missing_sentinel_errors ["CO2", "CH4"]
     (.inl (by decide))⟩

/-! ## SchemaMapper: short-to-full alias table -/

/-- Python dict assignment `full_names[k] = v`. -/
def assocSetStr (d : List (String × String)) (k v : String) :
    List (String × String) :=
  match d with
  | [] => [(k, v)]
  | (k', v') :: rest =>
      if k' = k then (k, v) :: rest else (k', v') :: assocSetStr rest k v

/-- The key a field contributes to the alias table: its `short_name` when
declared, otherwise the field name itself. -/
def producedName (pf : String × FieldSpec) : String :=
  match pf.2.short_name with
  | some s => s
  | none => pf.1

/-- `Otoole_Interface.set_full_names`: one dict assignment
`full_names[short] = field` (or `full_names[field] = field`) per schema
field, in order. -/
def set_full_names (sand_yaml : Schema) : List (String × String) :=
  sand_yaml.foldl (fun fn pf => assocSetStr fn (producedName pf) pf.1) []

/-- Two fields declaring the same `short_name` `"S"`. -/
def cfgC3 : Schema :=
  [("FieldA", ⟨"param", [], "float", some "S"⟩),
   ("FieldB", ⟨"param", [], "float", some "S"⟩)]

/-- **C3, counterexample.** On a short-name collision, `set_full_names`
raises no configuration error: it silently returns a one-entry table in
which the later field overwrote the earlier, and `"FieldA"` is absent from
the mapping's range — the alias table is not a bijection over the active
schema. -/
theorem alias_collision_silently_overwrites :
    set_full_names cfgC3 = [("S", "FieldB")] ∧
    "FieldA" ∉ (set_full_names cfgC3).map Prod.snd := by
  decide

theorem assocSetStr_append {d : List (String × String)} {k v : String}
    (h : k ∉ d.map Prod.fst) : assocSetStr d k v = d ++ [(k, v)] := by
  induction d with
  | nil => rfl
  | cons hd rest ih =>
      obtain ⟨k', v'⟩ := hd
      simp only [List.map_cons, List.mem_cons] at h
      push_neg at h
      have hne : ¬ k' = k := fun e => h.1 e.symm
      simp only [assocSetStr, if_neg hne, List.cons_append, ih h.2]

theorem set_full_names_foldl (cfg : List (String × FieldSpec)) :
    ∀ acc : List (String × String),
      (∀ pf ∈ cfg, producedName pf ∉ acc.map Prod.fst) →
      (cfg.map producedName).Nodup →
      cfg.foldl (fun fn pf => assocSetStr fn (producedName pf) pf.1) acc =
        acc ++ cfg.map fun pf => (producedName pf, pf.1)
  | acc, _, _ => by
      induction cfg generalizing acc with
      | nil => simp
      | cons pf cfg ih =>
          rename_i hfresh hnd
          simp only [List.foldl_cons,
            assocSetStr_append (hfresh pf (List.mem_cons_self _ _))]
          simp only [List.map_cons, List.nodup_cons] at hnd
          rw [ih _ ?_ hnd.2]
          · simp
          · intro qf hqf
            simp only [List.map_append, List.mem_append, List.map_cons]
            rintro (habs | habs)
            · exact hfresh qf (List.mem_cons_of_mem _ hqf) habs
            · simp only [List.map_nil, List.mem_singleton] at habs
              exact hnd.1 (habs ▸ List.mem_map.mpr ⟨qf, hqf, rfl⟩)

/-- **C3 (amended).** Building the alias table never fails: a short-name
collision is silently resolved last-writer-wins (see
`alias_collision_silently_overwrites`).  When the produced names are
pairwise distinct — the collision-free case — the table has exactly one
entry per active-schema field, short name to full name, in schema order,
hence is a bijection over the active schema. -/
theorem set_full_names_of_nodup_produced (cfg : Schema)
    (hnd : (cfg.map producedName).Nodup) :
    set_full_names cfg = cfg.map fun pf => (producedName pf, pf.1) := by
  rw [set_full_names, set_full_names_foldl cfg [] (by simp) hnd]
  simp

theorem set_full_names_of_nodup_produced_witness :
    ((cfgW.map producedName).Nodup) ∧
    set_full_names cfgW = cfgW.map (fun pf => (producedName pf, pf.1)) :=
  ⟨by decide, set_full_names_of_nodup_produced cfgW (by decide)⟩

/-! ## TemplatePopulator: filling a set sheet -/

/-- `df["VALUE"] = data_df` in `populate_template`, for a set sheet (a
single `VALUE` column; both the template read by `read_excel` and the set
series carry a default `RangeIndex`), with pandas index-alignment column
assignment: an empty destination adopts the source's index, so the sheet
becomes the source sequence; a non-empty destination keeps its own row
count — positions beyond the source become NaN (`none`) and surplus source
values are dropped. -/
def populate_set_value (tmpl : List (Option Cell)) (src : List Cell) :
    List (Option Cell) :=
  if tmpl.length = 0 then src.map some
  else (List.range tmpl.length).map fun i => src[i]?

/-- **C6, counterexample.** Filling a one-row template from a two-value
source keeps one row: the destination is not resized to the source's
membership, and the source value `"b"` does not appear. -/
theorem set_fill_does_not_resize :
    populate_set_value [some (.str "X")] [.str "a", .str "b"] =
      [some (.str "a")] ∧
    some (Cell.str "b") ∉
      populate_set_value [some (.str "X")] [.str "a", .str "b"] := by
  decide

/-- **C6 (amended).** The `VALUE` column is written from the source in
order, position by position; the destination is resized to the source's
length only when the template is empty (the otoole templates are), while a
non-empty template keeps its pre-existing row count, truncating surplus
source values and NaN-padding missing ones. -/
theorem populate_set_value_spec (tmpl : List (Option Cell)) (src : List Cell) :
    (populate_set_value tmpl src).length =
      (if tmpl.length = 0 then src.length else tmpl.length) ∧
    ∀ i, i < (populate_set_value tmpl src).length →
      (populate_set_value tmpl src)[i]? = some src[i]? := by
  constructor
  · rw [populate_set_value]
    split <;> simp
  · intro i hi
    by_cases h : tmpl.length = 0
    · simp only [populate_set_value, if_pos h, List.length_map] at hi ⊢
      rw [List.getElem?_map, List.getElem?_eq_getElem hi]
      simp
    · simp only [populate_set_value, if_neg h, List.length_map,
        List.length_range] at hi ⊢
      rw [List.getElem?_map, List.getElem?_range hi]
      simp

theorem populate_set_value_spec_witness :
    0 < (populate_set_value [] [Cell.str "a"]).length ∧
    (populate_set_value [] [Cell.str "a"])[0]? =
      some (([Cell.str "a"] : List Cell)[0]?) :=
  ⟨by decide, (populate_set_value_spec [] [Cell.str "a"]).2 0 (by decide)⟩

/-! ## SchemaCatalog: loading the schema document -/

/-- The spec's `ConfigNotFound` condition. -/
inductive ConfigError where
  | configNotFound
deriving DecidableEq, Repr

/-- `Sand_Interface.load_config_yaml`: the filesystem is modelled as the
optional content of `config.yaml`.  A missing file's `FileNotFoundError` is
caught, logged and converted to the sentinel `False`, modelled as `none`;
otherwise the parsed document is returned. -/
def load_config_yaml (file : Option Schema) : Option Schema := file

/-- The guard in `Sand_Interface.__get_params`: `if config_yaml:` installs a
truthy loaded schema and raises
`FileNotFoundError("Generate config.yaml file.")` on the `False` sentinel
(or on a falsy empty mapping), which propagates to the caller and halts the
pipeline. -/
def get_params_config (file : Option Schema) : Except ConfigError Schema :=
  match load_config_yaml file with
  | some config => if config = [] then .error .configNotFound else .ok config
  | none => .error .configNotFound

/-- **C8.** When the schema document is absent, the loading step fails with
the `ConfigNotFound` condition, which propagates (the raised
`FileNotFoundError` is never caught) and halts the pipeline; and no
synthesized default is ever used: any schema the step returns is exactly
the document's own content. -/
theorem missing_config_halts :
    get_params_config none = .error .configNotFound ∧
    ∀ (file : Option Schema) (config : Schema),
      get_params_config file = .ok config → file = some config := by
  refine ⟨rfl, ?_⟩
  intro file config h
  cases file with
  | none => exact absurd h (by simp [get_params_config, load_config_yaml])
  | some c =>
      simp only [get_params_config, load_config_yaml] at h
      by_cases hc : c = []
      · rw [if_pos hc] at h
        exact absurd h (by simp)
      · rw [if_neg hc] at h
        rw [Except.ok.injEq] at h
        rw [h]

theorem missing_config_halts_witness :
    get_params_config (some cfgW) = Except.ok cfgW ∧ some cfgW = some cfgW :=
  ⟨by rfl, missing_config_halts.2 (some cfgW) cfgW (by rfl)⟩
